import Mathlib

/-!
Verification of the tkstoolbox candidate-identity generators.

The development shallowly embeds the two Python source files:

- `src/Azure/upn_generator.py`: `clean_name_part`, `parse_full_name`
  (the spec's NameParser) and `generate_upn_combinations`
  (the spec's UPNCombinator);
- `src/wl_generator.py`: `generate_usernames` (UsernameGenerator) and
  `generate_passwords` (PasswordMutator).

Python string values are modelled as Lean `String`s; every primitive
operation the sources use (`str.split()`, `str.strip()`, `str.lower()`,
`str.upper()`, `str.capitalize()`, `str.replace` with one-character
arguments, s[0] indexing, `in` membership, `sorted`) is embedded as an
explicit function on the underlying character list, mirroring Python's
(ASCII) semantics.  Python's `set` accumulation followed by
`sorted(list(...))` is modelled as `List.dedup` followed by an insertion
sort under the code-point lexicographic order, which is exactly how
Python orders strings.
-/

namespace TksToolbox

/-! ### Python-style string primitives -/

/-- Python `str.strip()`: remove whitespace from both ends. -/
def py_strip (s : String) : String :=
  ⟨((s.data.dropWhile Char.isWhitespace).reverse.dropWhile Char.isWhitespace).reverse⟩

/-- Helper for Python `str.split()`: accumulate the current (reversed) run of
non-whitespace characters and cut at whitespace. -/
def wsplitAux : List Char → List Char → List (List Char)
  | [], acc => if acc = [] then [] else [acc.reverse]
  | c :: cs, acc =>
    if c.isWhitespace then
      if acc = [] then wsplitAux cs [] else acc.reverse :: wsplitAux cs []
    else
      wsplitAux cs (c :: acc)

/-- Python `str.split()` with no argument: split on runs of whitespace,
discarding empty pieces. -/
def py_split_ws (s : String) : List String :=
  (wsplitAux s.data []).map String.mk

/-- Python `str.lower()` (ASCII). -/
def py_lower (s : String) : String := ⟨s.data.map Char.toLower⟩

/-- Python `str.upper()` (ASCII). -/
def py_upper (s : String) : String := ⟨s.data.map Char.toUpper⟩

/-- Python `str.replace(c, r)` for one-character pattern and replacement:
replace every occurrence. -/
def py_replace (s : String) (c r : Char) : String :=
  ⟨s.data.map fun ch => if ch = c then r else ch⟩

/-- Python `str.capitalize()`: first character uppercased, all remaining
characters lowercased. -/
def py_capitalize (s : String) : String :=
  match s.data with
  | [] => ""
  | c :: cs => ⟨c.toUpper :: cs.map Char.toLower⟩

/-- Option-valued model of Python's `s[0]` character indexing. -/
def charAt0? (s : String) : Option Char := s.data.head?

/-- Total wrapper around `charAt0?`: the one-character string `s[0]`, or `""`
when the lookup is out of bounds (where Python would raise `IndexError`). -/
def initialOf (s : String) : String :=
  match charAt0? s with
  | some c => ⟨[c]⟩
  | none => ""

/-- Python `c in s` for a single character. -/
def py_contains (s : String) (c : Char) : Bool := s.data.contains c

/-- The order Python's `sorted` uses on strings: code-point lexicographic. -/
def strle (a b : String) : Prop := a.data ≤ b.data

instance : DecidableRel strle := fun a b =>
  inferInstanceAs (Decidable (a.data ≤ b.data))

instance : IsTrans String strle :=
  ⟨fun _ _ _ hab hbc => le_trans hab hbc⟩

instance : IsTotal String strle :=
  ⟨fun a b => le_total a.data b.data⟩

instance : IsAntisymm String strle :=
  ⟨fun _ _ hab hba => String.ext (le_antisymm hab hba)⟩

/-- Python `sorted(list(someSet))` where the set was filled from the list `l`:
deduplicate, then sort ascending. -/
def sorted_set (l : List String) : List String :=
  List.insertionSort strle l.dedup

/-! ### NameParser (`src/Azure/upn_generator.py`, `clean_name_part` and
`parse_full_name`) -/

/-- `clean_name_part`: keep only alphabetic characters and whitespace, then
strip and lowercase. -/
def clean_name_part (name_part : String) : String :=
  let cleaned : String := ⟨name_part.data.filter fun c => c.isAlpha || c.isWhitespace⟩
  py_lower (py_strip cleaned)

/-- The parsed name components returned by `parse_full_name`. -/
structure NameComponents where
  first : String
  middles : List String
  last : String
deriving DecidableEq, Repr

/-- `parse_full_name`: split on whitespace, strip and drop empty parts, clean
each part and drop parts that clean to empty, then assign first / middles /
last.  The two `ValueError` branches of the Python code are modelled as
`none`. -/
def parse_full_name (full_name : String) : Option NameComponents :=
  let name_parts := ((py_split_ws full_name).map py_strip).filter fun p => p ≠ ""
  if name_parts = [] then
    none
  else
    let cleaned_parts := (name_parts.map clean_name_part).filter fun p => p ≠ ""
    if cleaned_parts = [] then
      none
    else
      some
        { first := cleaned_parts.headD ""
        , middles := if 2 < cleaned_parts.length then cleaned_parts.tail.dropLast else []
        , last := if 1 < cleaned_parts.length then cleaned_parts.getLastD "" else "" }

/-- The cleaned, non-empty tokens of a full name (the Python `cleaned_parts`
list, given that stripping a whitespace-free split part is the identity). -/
def cleaned_tokens (s : String) : List String :=
  ((py_split_ws s).map clean_name_part).filter fun t => t ≠ ""

/-! ### UPNCombinator (`src/Azure/upn_generator.py`,
`generate_upn_combinations`)

Every string the Python function adds to its set has the shape
`f"{localPart}@{domain}"`, so the embedding first collects the local parts
(`upn_local_parts`) and then appends `"@" ++ domain` to each.  The unused
Python variable `base_combinations` (collected but never read) is omitted. -/

/-- The ordered name list `[first_name] + middle_names + ([last_name] if
last_name else [])`. -/
def all_names_of (first_name : String) (middle_names : List String)
    (last_name : String) : List String :=
  [first_name] ++ middle_names ++ (if last_name ≠ "" then [last_name] else [])

/-- The eight local parts the code emits for a pair `(x, y)`: the four joins
(concatenation, `.`, `_`, `-`) in order `x y`, then the same four in order
`y x`.  This shape is used by the pair rule, the initial+name rule and the
combined-initials rule. -/
def sep_join_locals (x y : String) : List String :=
  [x ++ y, x ++ "." ++ y, x ++ "_" ++ y, x ++ "-" ++ y,
   y ++ x, y ++ "." ++ x, y ++ "_" ++ x, y ++ "-" ++ x]

/-- The six local parts the code emits for a 3-combination `(n1, n2, n3)`. -/
def triple_locals (n1 n2 n3 : String) : List String :=
  [n1 ++ n2 ++ n3, n1 ++ "." ++ n2 ++ "." ++ n3, n1 ++ "_" ++ n2 ++ "_" ++ n3,
   n1 ++ "-" ++ n2 ++ "-" ++ n3, n1 ++ "." ++ n2 ++ n3, n1 ++ n2 ++ "." ++ n3]

/-- The four `common_patterns` base local parts for the numbered variants,
each falling back to the bare first name when the last name is empty. -/
def common_patterns (first_name last_name : String) : List String :=
  [if last_name ≠ "" then first_name ++ last_name else first_name,
   if last_name ≠ "" then first_name ++ "." ++ last_name else first_name,
   if last_name ≠ "" then initialOf first_name ++ last_name else first_name,
   if last_name ≠ "" then first_name ++ initialOf last_name else first_name]

/-- The suffixes of the numbered variants: the digits of `range(1, 10)`
followed by the five literal suffixes. -/
def numbered_suffixes : List String :=
  ((List.range' 1 9).map fun n => toString n) ++ ["01", "02", "03", "2024", "2025"]

/-- All local parts `generate_upn_combinations` inserts (before `@domain`),
section by section in source order: singles, pairs, triples, initial+name,
combined initials, all-initials, numbered variants. -/
def upn_local_parts (first_name : String) (middle_names : List String)
    (last_name : String) : List String :=
  let all_names := all_names_of first_name middle_names last_name
  (all_names.filter fun n => n ≠ "")
  ++ (if 2 ≤ all_names.length then
        (List.sublistsLen 2 all_names).flatMap fun combo =>
          match combo with
          | [n1, n2] => sep_join_locals n1 n2
          | _ => []
      else [])
  ++ (if 3 ≤ all_names.length then
        (List.sublistsLen 3 all_names).flatMap fun combo =>
          match combo with
          | [n1, n2, n3] => triple_locals n1 n2 n3
          | _ => []
      else [])
  ++ ((List.range all_names.length).flatMap fun i =>
        let name := all_names.getD i ""
        if name ≠ "" then
          (List.range all_names.length).flatMap fun j =>
            let other_name := all_names.getD j ""
            if i ≠ j ∧ other_name ≠ "" then
              sep_join_locals (initialOf name) other_name
            else []
        else [])
  ++ (if 2 ≤ all_names.length then
        all_names.flatMap fun main_name =>
          if main_name ≠ "" then
            let other_names := all_names.filter fun n => n ≠ main_name
            if other_names ≠ [] then
              sep_join_locals (String.join (other_names.map initialOf)) main_name
            else []
          else []
      else [])
  ++ (if 2 ≤ all_names.length then
        let all_initials := String.join (((all_names.filter fun n => n ≠ "").map initialOf))
        if 2 ≤ all_initials.length then [all_initials] else []
      else [])
  ++ ((common_patterns first_name last_name).flatMap fun pattern =>
        if pattern ≠ "" then numbered_suffixes.map (fun suffix => pattern ++ suffix)
        else [])

/-- The full UPN strings inserted into the set. -/
def upn_candidates (first_name : String) (middle_names : List String)
    (last_name : String) (domain : String) : List String :=
  (upn_local_parts first_name middle_names last_name).map fun p => p ++ "@" ++ domain

/-- `generate_upn_combinations`: the candidate set, deduplicated and sorted. -/
def generate_upn_combinations (first_name : String) (middle_names : List String)
    (last_name : String) (domain : String) : List String :=
  sorted_set (upn_candidates first_name middle_names last_name domain)

/-- The strings on which `generate_upn_combinations` performs `s[0]`
character indexing, section by section: the initial+name rule indexes each
non-empty name once; the combined-initials rule indexes every name different
from the chosen main name (with no emptiness guard); the all-initials rule
indexes each non-empty name; the numbered patterns index `first_name` and
`last_name` when `last_name` is non-empty. -/
def upn_indexed_strings (first_name : String) (middle_names : List String)
    (last_name : String) : List String :=
  let all_names := all_names_of first_name middle_names last_name
  (all_names.filter fun n => n ≠ "")
  ++ (if 2 ≤ all_names.length then
        all_names.flatMap fun main_name =>
          if main_name ≠ "" then
            let other_names := all_names.filter fun n => n ≠ main_name
            if other_names ≠ [] then other_names else []
          else []
      else [])
  ++ (if 2 ≤ all_names.length then all_names.filter fun n => n ≠ "" else [])
  ++ (if last_name ≠ "" then [first_name, last_name] else [])

/-! ### UsernameGenerator and PasswordMutator (`src/wl_generator.py`) -/

/-- The candidates `generate_usernames` adds for one raw name. -/
def username_candidates_of (name : String) : List String :=
  let name := py_strip name
  if py_contains name ' ' then
    let parts := py_split_ws name
    let first := py_lower (parts.headD "")
    let last := py_lower (parts.getLastD "")
    [initialOf first ++ last, initialOf last ++ first, first ++ "." ++ last, first, last]
  else
    [py_lower name]

/-- `generate_usernames`: union of the per-name candidates, deduplicated and
sorted. -/
def generate_usernames (names : List String) : List String :=
  sorted_set (names.flatMap username_candidates_of)

/-- The eight literal suffix characters of `generate_passwords`. -/
def password_suffixes : List String := ["!", "^", "?", "&", "*", "#", "%", "@"]

/-- The candidates `generate_passwords` adds for one keyword: the basic case
variants, the five single-character substitutions applied to the original,
and the suffixed forms of the keyword and its capitalization. -/
def password_candidates_of (keyword : String) : List String :=
  let keyword := py_strip keyword
  [keyword, py_lower keyword, py_upper keyword, py_capitalize keyword,
   py_replace keyword 'a' '@', py_replace keyword 'o' '0', py_replace keyword 'e' '3',
   py_replace keyword 's' '$', py_replace keyword 'i' '1']
  ++ password_suffixes.flatMap fun suffix =>
      [keyword ++ suffix, py_capitalize keyword ++ suffix]

/-- `generate_passwords`: union of the per-keyword candidates, deduplicated
and sorted. -/
def generate_passwords (keywords : List String) : List String :=
  sorted_set (keywords.flatMap password_candidates_of)

/-! ### Basic string lemmas -/

theorem str_ne_empty_iff {s : String} : s ≠ "" ↔ s.data ≠ [] :=
  ⟨fun h hd => h (String.ext hd), fun h he => h (congrArg String.data he)⟩

theorem append_ne_empty_of_right {s t : String} (h : t ≠ "") : s ++ t ≠ "" := by
  rw [str_ne_empty_iff] at h ⊢
  rw [String.data_append]
  exact fun he => h (List.append_eq_nil.mp he).2

theorem str_append_empty (s : String) : s ++ "" = s :=
  String.ext (by simp [String.data_append])

theorem sandwich_inj (f g : String) : Function.Injective fun t => f ++ t ++ g := by
  intro t₁ t₂ h
  apply String.ext
  have hd := congrArg String.data h
  simp only [String.data_append, List.append_assoc] at hd
  exact List.append_cancel_right (List.append_cancel_left hd)

theorem mem_sorted_set {x : String} {l : List String} :
    x ∈ sorted_set l ↔ x ∈ l := by
  unfold sorted_set
  rw [(List.perm_insertionSort strle _).mem_iff, List.mem_dedup]

theorem sorted_sorted_set (l : List String) :
    List.Sorted strle (sorted_set l) :=
  List.sorted_insertionSort strle _

theorem headD_mem {α : Type} {l : List α} (h : l ≠ []) (d : α) : l.headD d ∈ l := by
  cases l with
  | nil => exact absurd rfl h
  | cons a t => exact List.mem_cons_self a t

theorem getLastD_mem {α : Type} {l : List α} (h : l ≠ []) (d : α) : l.getLastD d ∈ l := by
  induction l generalizing d with
  | nil => exact absurd rfl h
  | cons a t ih =>
    cases t with
    | nil => exact List.mem_cons_self a []
    | cons b u =>
      rw [List.getLastD_cons]
      exact List.mem_cons_of_mem a (ih (by simp) a)

/-! ### Lemmas about the split and strip primitives -/

theorem mem_wsplitAux {l : List Char} :
    ∀ {acc p : List Char}, (∀ c ∈ acc, c.isWhitespace = false) →
      p ∈ wsplitAux l acc → p ≠ [] ∧ ∀ c ∈ p, c.isWhitespace = false := by
  induction l with
  | nil =>
    intro acc p hacc hp
    rw [wsplitAux] at hp
    by_cases h : acc = []
    · simp [h] at hp
    · rw [if_neg h, List.mem_singleton] at hp
      subst hp
      refine ⟨by simpa using h, ?_⟩
      intro c hc
      exact hacc c (List.mem_reverse.mp hc)
  | cons c cs ih =>
    intro acc p hacc hp
    rw [wsplitAux] at hp
    by_cases hws : c.isWhitespace
    · rw [if_pos hws] at hp
      by_cases h : acc = []
      · rw [if_pos h] at hp
        exact ih (by simp) hp
      · rw [if_neg h] at hp
        rcases List.mem_cons.mp hp with hp | hp
        · subst hp
          refine ⟨by simpa using h, ?_⟩
          intro x hx
          exact hacc x (List.mem_reverse.mp hx)
        · exact ih (by simp) hp
    · rw [if_neg hws] at hp
      refine ih ?_ hp
      intro x hx
      rcases List.mem_cons.mp hx with hx | hx
      · subst hx
        exact Bool.not_eq_true _ ▸ eq_false_of_ne_true hws
      · exact hacc x hx

theorem wsplitAux_ne_nil {l : List Char} :
    ∀ {acc : List Char}, (acc ≠ [] ∨ ∃ c ∈ l, c.isWhitespace = false) →
      wsplitAux l acc ≠ [] := by
  induction l with
  | nil =>
    intro acc h
    rcases h with h | ⟨c, hc, _⟩
    · rw [wsplitAux, if_neg h]
      simp
    · simp at hc
  | cons c cs ih =>
    intro acc h
    rw [wsplitAux]
    by_cases hws : c.isWhitespace
    · rw [if_pos hws]
      by_cases hacc : acc = []
      · rw [if_pos hacc]
        apply ih
        right
        rcases h with h | ⟨x, hx, hxw⟩
        · exact absurd hacc h
        · rcases List.mem_cons.mp hx with hx | hx
          · subst hx
            rw [hws] at hxw
            cases hxw
          · exact ⟨x, hx, hxw⟩
      · rw [if_neg hacc]
        simp
    · rw [if_neg hws]
      apply ih
      left
      simp

theorem mem_py_split_ws {s p : String} (hp : p ∈ py_split_ws s) :
    p ≠ "" ∧ ∀ c ∈ p.data, c.isWhitespace = false := by
  unfold py_split_ws at hp
  rcases List.mem_map.mp hp with ⟨q, hq, rfl⟩
  have := mem_wsplitAux (by simp) hq
  exact ⟨str_ne_empty_iff.mpr this.1, this.2⟩

theorem py_split_ws_ne_nil {s : String}
    (h : ∃ c ∈ s.data, c.isWhitespace = false) : py_split_ws s ≠ [] := by
  unfold py_split_ws
  intro hcon
  exact wsplitAux_ne_nil (Or.inr h) (List.map_eq_nil_iff.mp hcon)

theorem dropWhile_eq_self_of {p : Char → Bool} {l : List Char}
    (h : ∀ c ∈ l, p c = false) : l.dropWhile p = l := by
  cases l with
  | nil => rfl
  | cons a t =>
    rw [List.dropWhile_cons, h a (List.mem_cons_self a t)]
    simp

theorem py_strip_eq_self {s : String}
    (h : ∀ c ∈ s.data, c.isWhitespace = false) : py_strip s = s := by
  apply String.ext
  unfold py_strip
  rw [dropWhile_eq_self_of h, dropWhile_eq_self_of (by simpa using h), List.reverse_reverse]

theorem exists_nonws_of_strip_ne {s : String} (h : py_strip s ≠ "") :
    ∃ c ∈ (py_strip s).data, c.isWhitespace = false := by
  rw [str_ne_empty_iff] at h
  unfold py_strip at h ⊢
  set m := (s.data.dropWhile Char.isWhitespace).reverse.dropWhile Char.isWhitespace with hm
  have hmne : m ≠ [] := by
    intro hcon
    rw [hcon] at h
    exact h rfl
  refine ⟨m.head hmne, ?_, ?_⟩
  · exact List.mem_reverse.mpr (List.head_mem hmne)
  · exact List.head_dropWhile_not Char.isWhitespace _ hmne

/-! ### Non-emptiness preservation -/

theorem py_lower_ne_empty {s : String} (h : s ≠ "") : py_lower s ≠ "" := by
  rw [str_ne_empty_iff] at h ⊢
  simpa [py_lower] using h

theorem py_upper_ne_empty {s : String} (h : s ≠ "") : py_upper s ≠ "" := by
  rw [str_ne_empty_iff] at h ⊢
  simpa [py_upper] using h

theorem py_replace_ne_empty {s : String} (c r : Char) (h : s ≠ "") :
    py_replace s c r ≠ "" := by
  rw [str_ne_empty_iff] at h ⊢
  simpa [py_replace] using h

theorem py_capitalize_ne_empty {s : String} (h : s ≠ "") : py_capitalize s ≠ "" := by
  rw [str_ne_empty_iff] at h
  unfold py_capitalize
  cases hd : s.data with
  | nil => exact absurd hd h
  | cons a t => simp [str_ne_empty_iff]

/-! ### Characterization of `parse_full_name` -/

theorem py_strip_of_split_mem {s p : String} (hp : p ∈ py_split_ws s) :
    py_strip p = p :=
  py_strip_eq_self (mem_py_split_ws hp).2

theorem name_parts_eq (s : String) :
    (((py_split_ws s).map py_strip).filter fun p => p ≠ "") = py_split_ws s := by
  rw [show (py_split_ws s).map py_strip = (py_split_ws s).map id from
        List.map_congr_left fun p hp => py_strip_of_split_mem hp,
      List.map_id]
  exact List.filter_eq_self.mpr fun p hp => decide_eq_true (mem_py_split_ws hp).1

theorem parse_full_name_eq (s : String) :
    parse_full_name s =
      if cleaned_tokens s = [] then none
      else some
        { first := (cleaned_tokens s).headD ""
        , middles := if 2 < (cleaned_tokens s).length then (cleaned_tokens s).tail.dropLast else []
        , last := if 1 < (cleaned_tokens s).length then (cleaned_tokens s).getLastD "" else "" } := by
  simp only [parse_full_name, name_parts_eq, cleaned_tokens]
  by_cases h1 : py_split_ws s = []
  · simp [h1]
  · rw [if_neg h1]

theorem mem_cleaned_tokens_ne {s t : String} (ht : t ∈ cleaned_tokens s) : t ≠ "" := by
  unfold cleaned_tokens at ht
  exact of_decide_eq_true (List.mem_filter.mp ht).2

/-- C2: `parse_full_name` fails (returns `none`, modelling `EmptyInputError`)
exactly when every whitespace-separated token of the input cleans to the
empty string; on every other input it succeeds. -/
theorem parse_failure_iff (s : String) :
    parse_full_name s = none ↔ ∀ t ∈ py_split_ws s, clean_name_part t = "" := by
  rw [parse_full_name_eq]
  constructor
  · intro h t ht
    by_cases hc : cleaned_tokens s = []
    · unfold cleaned_tokens at hc
      have := List.filter_eq_nil_iff.mp hc (clean_name_part t) (List.mem_map_of_mem _ ht)
      simpa using this
    · rw [if_neg hc] at h
      cases h
  · intro h
    have hc : cleaned_tokens s = [] := by
      unfold cleaned_tokens
      rw [List.filter_eq_nil_iff]
      intro x hx
      rcases List.mem_map.mp hx with ⟨t, ht, rfl⟩
      simp [h t ht]
    simp [hc]

/-- C1: whenever `parse_full_name` succeeds, `first` is the first cleaned
token and is non-empty; with exactly one cleaned token, `last` is empty and
`middles` is empty; with at least two cleaned tokens, `last` is the final
cleaned token (non-empty) and `middles` is the list of cleaned tokens
strictly between the first and the last, in order. -/
theorem parse_success_components (s : String) (c : NameComponents)
    (h : parse_full_name s = some c) :
    cleaned_tokens s ≠ [] ∧
    c.first = (cleaned_tokens s).headD "" ∧ c.first ≠ "" ∧
    ((cleaned_tokens s).length = 1 → c.last = "" ∧ c.middles = []) ∧
    (2 ≤ (cleaned_tokens s).length →
      c.last = (cleaned_tokens s).getLastD "" ∧ c.last ≠ "" ∧
      c.middles = (cleaned_tokens s).tail.dropLast) := by
  rw [parse_full_name_eq] at h
  by_cases hc : cleaned_tokens s = []
  · rw [if_pos hc] at h
    cases h
  · rw [if_neg hc] at h
    obtain rfl : c = _ := (Option.some.inj h).symm
    refine ⟨hc, rfl, mem_cleaned_tokens_ne (headD_mem hc ""), ?_, ?_⟩
    · intro hlen
      constructor
      · show (if 1 < (cleaned_tokens s).length then _ else "") = ""
        rw [hlen]
        simp
      · show (if 2 < (cleaned_tokens s).length then _ else []) = []
        rw [hlen]
        simp
    · intro hlen
      refine ⟨?_, ?_, ?_⟩
      · show (if 1 < (cleaned_tokens s).length then _ else "") = _
        rw [if_pos (by omega)]
      · show (if 1 < (cleaned_tokens s).length then _ else "") ≠ ""
        rw [if_pos (by omega)]
        exact mem_cleaned_tokens_ne (getLastD_mem hc "")
      · show (if 2 < (cleaned_tokens s).length then _ else []) = _
        by_cases h2 : 2 < (cleaned_tokens s).length
        · rw [if_pos h2]
        · rw [if_neg h2]
          have hlen2 : (cleaned_tokens s).length = 2 := by omega
          symm
          apply List.eq_nil_of_length_eq_zero
          rw [List.length_dropLast, List.length_tail, hlen2]

/-- Witness for C1 at the spec's own example input. -/
theorem parse_success_components_witness :
    parse_full_name "John Michael Smith" = some ⟨"john", ["michael"], "smith"⟩ ∧
    ("john" : String) ≠ "" :=
  ⟨by decide,
   (parse_success_components "John Michael Smith" ⟨"john", ["michael"], "smith"⟩
      (by decide)).2.2.1⟩

/-- Successful parses produce a non-empty first name and non-empty middles. -/
theorem parse_success_ne_empty (s : String) (c : NameComponents)
    (h : parse_full_name s = some c) :
    c.first ≠ "" ∧ ∀ m ∈ c.middles, m ≠ "" := by
  rw [parse_full_name_eq] at h
  by_cases hc : cleaned_tokens s = []
  · rw [if_pos hc] at h
    cases h
  · rw [if_neg hc] at h
    obtain rfl : c = _ := (Option.some.inj h).symm
    refine ⟨mem_cleaned_tokens_ne (headD_mem hc ""), ?_⟩
    intro m hm
    show m ≠ ""
    have hm' : m ∈ (if 2 < (cleaned_tokens s).length then (cleaned_tokens s).tail.dropLast else []) := hm
    by_cases h2 : 2 < (cleaned_tokens s).length
    · rw [if_pos h2] at hm'
      exact mem_cleaned_tokens_ne
        ((List.tail_sublist _).subset ((List.dropLast_sublist _).subset hm'))
    · rw [if_neg h2] at hm'
      cases hm'

theorem charAt0?_isSome {t : String} (h : t ≠ "") : (charAt0? t).isSome = true := by
  unfold charAt0?
  rw [str_ne_empty_iff] at h
  cases hd : t.data with
  | nil => exact absurd hd h
  | cons a u => simp [hd]

/-- Every entry of the ordered name list of a successfully parsed name is
non-empty. -/
theorem all_names_ne_empty (s : String) (c : NameComponents)
    (h : parse_full_name s = some c) :
    ∀ n ∈ all_names_of c.first c.middles c.last, n ≠ "" := by
  obtain ⟨h1, h2⟩ := parse_success_ne_empty s c h
  intro n hn
  unfold all_names_of at hn
  rw [List.append_assoc, List.mem_append, List.mem_append] at hn
  rcases hn with hn | hn | hn
  · rw [List.mem_singleton] at hn
    subst hn
    exact h1
  · exact h2 n hn
  · by_cases hl : c.last = ""
    · rw [if_neg (by simpa using hl)] at hn
      cases hn
    · rw [if_pos hl] at hn
      rw [List.mem_singleton] at hn
      subst hn
      exact hl

/-- C10: under a successful parse, every string on which
`generate_upn_combinations` performs `s[0]` character indexing is non-empty,
so the `Option`-valued lookup `charAt0?` never returns `none`. -/
theorem upn_indexing_in_bounds (s : String) (c : NameComponents)
    (h : parse_full_name s = some c) :
    ∀ t ∈ upn_indexed_strings c.first c.middles c.last,
      (charAt0? t).isSome = true := by
  have hall := all_names_ne_empty s c h
  have h1 := (parse_success_ne_empty s c h).1
  intro t ht
  apply charAt0?_isSome
  simp only [upn_indexed_strings, List.mem_append] at ht
  rcases ht with ((ht | ht) | ht) | ht
  · exact of_decide_eq_true (List.mem_filter.mp ht).2
  · split at ht
    · rcases List.mem_flatMap.mp ht with ⟨main, hmain, hmem⟩
      split at hmem
      · split at hmem
        · exact hall t (List.mem_filter.mp hmem).1
        · cases hmem
      · cases hmem
    · cases ht
  · split at ht
    · exact of_decide_eq_true (List.mem_filter.mp ht).2
    · cases ht
  · split at ht
    · rcases List.mem_cons.mp ht with rfl | ht
      · exact h1
      · rw [List.mem_singleton] at ht
        subst ht
        next hl => exact hl
    · cases ht

/-- Witness for C10 at a concrete successfully parsed name. -/
theorem upn_indexing_in_bounds_witness :
    parse_full_name "John Michael Smith" = some ⟨"john", ["michael"], "smith"⟩ ∧
    (charAt0? "john").isSome = true :=
  ⟨by decide,
   upn_indexing_in_bounds "John Michael Smith" ⟨"john", ["michael"], "smith"⟩
     (by decide) "john" (by decide)⟩

/-! ### Membership in the UPN candidate set -/

theorem mem_generate_upn_iff {f l d x : String} {ms : List String} :
    x ∈ generate_upn_combinations f ms l d ↔ x ∈ upn_candidates f ms l d := by
  unfold generate_upn_combinations
  exact mem_sorted_set

theorem mem_upn_candidates_of_local {f l d p : String} {ms : List String}
    (hp : p ∈ upn_local_parts f ms l) :
    p ++ "@" ++ d ∈ upn_candidates f ms l d :=
  List.mem_map_of_mem _ hp

/-- C6: every string produced by `generate_upn_combinations` is some local
part followed by `@` and the verbatim input domain. -/
theorem upn_domain_suffix (c : NameComponents) (d x : String)
    (h : x ∈ generate_upn_combinations c.first c.middles c.last d) :
    ∃ localPart, x = localPart ++ "@" ++ d := by
  rw [mem_generate_upn_iff] at h
  rcases List.mem_map.mp h with ⟨p, _, rfl⟩
  exact ⟨p, rfl⟩

/-- Witness for C6 at a concrete generated UPN. -/
theorem upn_domain_suffix_witness :
    "john@x.com" ∈ generate_upn_combinations "john" [] "" "x.com" ∧
    ∃ localPart, "john@x.com" = localPart ++ "@" ++ "x.com" :=
  ⟨by decide,
   upn_domain_suffix ⟨"john", [], ""⟩ "x.com" "john@x.com" (by decide)⟩

theorem pair_sublist_of_mem {α : Type} {a b : α} {l : List α}
    (ha : a ∈ l) (hb : b ∈ l) (h : a ≠ b) :
    [a, b].Sublist l ∨ [b, a].Sublist l := by
  induction l with
  | nil => cases ha
  | cons c t ih =>
    rcases List.mem_cons.mp ha with rfl | ha'
    · left
      rw [List.cons_sublist_cons, List.singleton_sublist]
      rcases List.mem_cons.mp hb with rfl | hb'
      · exact absurd rfl h
      · exact hb'
    · rcases List.mem_cons.mp hb with rfl | hb'
      · right
        rw [List.cons_sublist_cons, List.singleton_sublist]
        exact ha'
      · rcases ih ha' hb' with hs | hs
        · exact Or.inl (List.sublist_cons_of_sublist c hs)
        · exact Or.inr (List.sublist_cons_of_sublist c hs)

theorem mem_sep_join_symm {p x y : String} (hp : p ∈ sep_join_locals x y) :
    p ∈ sep_join_locals y x := by
  simp only [sep_join_locals, List.mem_cons, List.not_mem_nil, or_false] at hp ⊢
  tauto

theorem pair_local_mem {f l a b p : String} {ms : List String}
    (hsub : [a, b].Sublist (all_names_of f ms l))
    (hp : p ∈ sep_join_locals a b) :
    p ∈ upn_local_parts f ms l := by
  simp only [upn_local_parts, List.mem_append]
  refine Or.inl (Or.inl (Or.inl (Or.inl (Or.inl (Or.inr ?_)))))
  rw [if_pos (by simpa using hsub.length_le)]
  exact List.mem_flatMap.mpr ⟨[a, b], List.mem_sublistsLen.mpr ⟨hsub, rfl⟩, hp⟩

/-- C4: for any two distinct names of the ordered name list, all eight pair
strings (both orders, four joins each) are in the generated set. -/
theorem pairs_rule_complete (c : NameComponents) (d n1 n2 : String)
    (hlen : 2 ≤ (all_names_of c.first c.middles c.last).length)
    (h1 : n1 ∈ all_names_of c.first c.middles c.last)
    (h2 : n2 ∈ all_names_of c.first c.middles c.last)
    (hne : n1 ≠ n2) :
    n1 ++ n2 ++ "@" ++ d ∈ generate_upn_combinations c.first c.middles c.last d ∧
    n1 ++ "." ++ n2 ++ "@" ++ d ∈ generate_upn_combinations c.first c.middles c.last d ∧
    n1 ++ "_" ++ n2 ++ "@" ++ d ∈ generate_upn_combinations c.first c.middles c.last d ∧
    n1 ++ "-" ++ n2 ++ "@" ++ d ∈ generate_upn_combinations c.first c.middles c.last d ∧
    n2 ++ n1 ++ "@" ++ d ∈ generate_upn_combinations c.first c.middles c.last d ∧
    n2 ++ "." ++ n1 ++ "@" ++ d ∈ generate_upn_combinations c.first c.middles c.last d ∧
    n2 ++ "_" ++ n1 ++ "@" ++ d ∈ generate_upn_combinations c.first c.middles c.last d ∧
    n2 ++ "-" ++ n1 ++ "@" ++ d ∈ generate_upn_combinations c.first c.middles c.last d := by
  have key : ∀ p ∈ sep_join_locals n1 n2,
      p ++ "@" ++ d ∈ generate_upn_combinations c.first c.middles c.last d := by
    intro p hp
    rw [mem_generate_upn_iff]
    rcases pair_sublist_of_mem h1 h2 hne with hsub | hsub
    · exact mem_upn_candidates_of_local (pair_local_mem hsub hp)
    · exact mem_upn_candidates_of_local (pair_local_mem hsub (mem_sep_join_symm hp))
  exact ⟨key _ (by simp [sep_join_locals]), key _ (by simp [sep_join_locals]),
         key _ (by simp [sep_join_locals]), key _ (by simp [sep_join_locals]),
         key _ (by simp [sep_join_locals]), key _ (by simp [sep_join_locals]),
         key _ (by simp [sep_join_locals]), key _ (by simp [sep_join_locals])⟩

/-- Witness for C4 on the parsed components of a two-token name. -/
theorem pairs_rule_complete_witness :
    "john" ++ "smith" ++ "@" ++ "x.com" ∈
      generate_upn_combinations "john" [] "smith" "x.com" :=
  (pairs_rule_complete ⟨"john", [], "smith"⟩ "x.com" "john" "smith"
    (by decide) (by decide) (by decide) (by decide)).1

/-- C5: for each non-empty name chosen as main with at least one other name
present, the eight combined-initials strings (initials of all other names
joined to main by the four joins, in both orders) are in the generated
set. -/
theorem combined_initials_rule_complete (c : NameComponents) (d main : String)
    (hlen : 2 ≤ (all_names_of c.first c.middles c.last).length)
    (hmain : main ∈ all_names_of c.first c.middles c.last)
    (hmain_ne : main ≠ "")
    (hothers : (all_names_of c.first c.middles c.last).filter (fun n => n ≠ main) ≠ []) :
    ∀ p ∈ sep_join_locals
        (String.join (((all_names_of c.first c.middles c.last).filter
          (fun n => n ≠ main)).map initialOf))
        main,
      p ++ "@" ++ d ∈ generate_upn_combinations c.first c.middles c.last d := by
  intro p hp
  rw [mem_generate_upn_iff]
  apply mem_upn_candidates_of_local
  simp only [upn_local_parts, List.mem_append]
  refine Or.inl (Or.inl (Or.inr ?_))
  rw [if_pos hlen]
  refine List.mem_flatMap.mpr ⟨main, hmain, ?_⟩
  rw [if_pos hmain_ne, if_pos hothers]
  exact hp

/-- Witness for C5 on the parsed components of a two-token name. -/
theorem combined_initials_rule_complete_witness :
    String.join (((all_names_of "john" [] "smith").filter
        (fun n => n ≠ "smith")).map initialOf) ++ "smith" ++ "@" ++ "x.com" ∈
      generate_upn_combinations "john" [] "smith" "x.com" :=
  combined_initials_rule_complete ⟨"john", [], "smith"⟩ "x.com" "smith"
    (by decide) (by decide) (by decide) (by decide) _ (by decide)

/-! ### The single-name case of the UPN combinator -/

theorem single_local_parts {f : String} (hf : f ≠ "") (p : String) :
    p ∈ upn_local_parts f [] "" ↔ p = f ∨ ∃ t ∈ numbered_suffixes, p = f ++ t := by
  simp only [upn_local_parts, all_names_of, common_patterns, hf]
  simp [hf]
  exact or_congr_right (exists_congr fun t => and_congr_right fun _ => eq_comm)

/-- The fifteen suffixes of the single-name output: nothing (the bare name),
the digits 1 to 9, and the five literal suffixes. -/
def single_name_suffixes : List String :=
  ["", "1", "2", "3", "4", "5", "6", "7", "8", "9", "01", "02", "03", "2024", "2025"]

theorem numbered_suffixes_eval :
    numbered_suffixes =
      ["1", "2", "3", "4", "5", "6", "7", "8", "9", "01", "02", "03", "2024", "2025"] := by
  decide

theorem single_name_suffixes_eval :
    single_name_suffixes = "" :: numbered_suffixes := by
  rw [numbered_suffixes_eval]
  rfl

theorem single_name_target_nodup (f d : String) :
    (single_name_suffixes.map fun t => f ++ t ++ "@" ++ d).Nodup := by
  apply List.Nodup.map
  · intro t₁ t₂ he
    exact sandwich_inj f ("@" ++ d) (by
      simpa [String.ext_iff, String.data_append, List.append_assoc] using
        congrArg String.data he)
  · decide

theorem single_name_mem_iff {f : String} (hf : f ≠ "") (d x : String) :
    x ∈ upn_candidates f [] "" d ↔
      x ∈ single_name_suffixes.map fun t => f ++ t ++ "@" ++ d := by
  rw [upn_candidates, List.mem_map]
  constructor
  · rintro ⟨p, hp, rfl⟩
    rcases (single_local_parts hf p).mp hp with rfl | ⟨t, ht, rfl⟩
    · exact List.mem_map.mpr
        ⟨"", by rw [single_name_suffixes_eval]; exact List.mem_cons_self _ _,
         by rw [str_append_empty]⟩
    · refine List.mem_map.mpr ⟨t, ?_, rfl⟩
      rw [single_name_suffixes_eval]
      exact List.mem_cons_of_mem _ ht
  · intro hx
    rcases List.mem_map.mp hx with ⟨t, ht, rfl⟩
    rw [single_name_suffixes_eval] at ht
    rcases List.mem_cons.mp ht with rfl | ht
    · exact ⟨f, (single_local_parts hf f).mpr (Or.inl rfl), by rw [str_append_empty]⟩
    · exact ⟨f ++ t, (single_local_parts hf (f ++ t)).mpr (Or.inr ⟨t, ht, rfl⟩), rfl⟩

/-- C3: for a single non-empty name (empty middles and last), the generated
set is exactly the ascending sorted sequence of the fifteen distinct strings
`first@domain` and `first` + suffix + `@domain` for the fourteen numbered
suffixes; no pair, triple, initial, combined-initials or all-initials
candidate appears. -/
theorem single_name_generation {f : String} (hf : f ≠ "") (d : String) :
    generate_upn_combinations f [] "" d =
      List.insertionSort strle (single_name_suffixes.map fun t => f ++ t ++ "@" ++ d) ∧
    (single_name_suffixes.map fun t => f ++ t ++ "@" ++ d).Nodup := by
  refine ⟨?_, single_name_target_nodup f d⟩
  apply List.eq_of_perm_of_sorted (r := strle)
  · refine ((List.perm_insertionSort strle _).trans ?_).trans
      (List.perm_insertionSort strle _).symm
    apply List.perm_of_nodup_nodup_toFinset_eq (List.nodup_dedup _)
      (single_name_target_nodup f d)
    ext a
    simp only [List.mem_toFinset, List.mem_dedup]
    exact single_name_mem_iff hf d a
  · exact sorted_sorted_set _
  · exact List.sorted_insertionSort strle _

/-- Witness for C3 at a one-token name. -/
theorem single_name_generation_witness :
    ("madonna" : String) ≠ "" ∧
    (generate_upn_combinations "madonna" [] "" "x.com" =
      List.insertionSort strle
        (single_name_suffixes.map fun t => "madonna" ++ t ++ "@" ++ "x.com") ∧
    (single_name_suffixes.map fun t => "madonna" ++ t ++ "@" ++ "x.com").Nodup) :=
  ⟨by decide, single_name_generation (by decide) "x.com"⟩

/-! ### UsernameGenerator and PasswordMutator claims -/

theorem mem_generate_usernames_iff {names : List String} {x : String} :
    x ∈ generate_usernames names ↔ ∃ n ∈ names, x ∈ username_candidates_of n := by
  unfold generate_usernames
  rw [mem_sorted_set, List.mem_flatMap]

theorem mem_generate_passwords_iff {kws : List String} {x : String} :
    x ∈ generate_passwords kws ↔ ∃ k ∈ kws, x ∈ password_candidates_of k := by
  unfold generate_passwords
  rw [mem_sorted_set, List.mem_flatMap]

/-- C7: `generate_usernames` returns the sorted union over the input names of
the per-name candidates (for a trimmed name with a space: first-initial plus
last, last-initial plus first, first dot last, first, last, all lowercased;
otherwise the whole trimmed name lowercased), and on `["John Smith"]` it
returns exactly the sorted five-element set of the spec's example. -/
theorem username_generation (names : List String) (x : String) :
    (x ∈ generate_usernames names ↔ ∃ n ∈ names, x ∈ username_candidates_of n) ∧
    List.Sorted strle (generate_usernames names) ∧
    generate_usernames ["John Smith"] = ["john", "john.smith", "jsmith", "sjohn", "smith"] :=
  ⟨mem_generate_usernames_iff, sorted_sorted_set _, by decide⟩

/-- C8 counterexample: Python's `capitalize` lowercases everything after the
first character, so for the keyword `"aBc"` the emitted capitalized variant
is `"Abc"`, and the string `"ABc"` demanded by the claim (first character
uppercased, rest unchanged) is not in the output at all. -/
theorem password_capitalize_counterexample :
    py_capitalize "aBc" = "Abc" ∧ "ABc" ∉ generate_passwords ["aBc"] := by
  decide

/-- C8 (amended): for every non-empty trimmed keyword, the capitalized
variant equals the keyword with its first character uppercased and every
remaining character lowercased; this form is in the output, as are its eight
suffixed forms. -/
theorem password_capitalized_variant (kws : List String) (kw : String)
    (hkw : kw ∈ kws) (hne : py_strip kw ≠ "") :
    (∃ ch rest, (py_strip kw).data = ch :: rest ∧
      py_capitalize (py_strip kw) = ⟨ch.toUpper :: rest.map Char.toLower⟩) ∧
    py_capitalize (py_strip kw) ∈ generate_passwords kws ∧
    ∀ suffix ∈ password_suffixes,
      py_capitalize (py_strip kw) ++ suffix ∈ generate_passwords kws := by
  refine ⟨?_, ?_, ?_⟩
  · rw [str_ne_empty_iff] at hne
    cases hd : (py_strip kw).data with
    | nil => exact absurd hd hne
    | cons ch rest =>
      refine ⟨ch, rest, rfl, ?_⟩
      unfold py_capitalize
      rw [hd]
  · rw [mem_generate_passwords_iff]
    refine ⟨kw, hkw, ?_⟩
    simp only [password_candidates_of]
    apply List.mem_append_left
    simp
  · intro suffix hs
    rw [mem_generate_passwords_iff]
    refine ⟨kw, hkw, ?_⟩
    simp only [password_candidates_of]
    apply List.mem_append_right
    exact List.mem_flatMap.mpr ⟨suffix, hs, by simp⟩

/-- Witness for C8 (amended) at a mixed-case keyword. -/
theorem password_capitalized_variant_witness :
    py_capitalize (py_strip "aBc") ∈ generate_passwords ["aBc"] :=
  (password_capitalized_variant ["aBc"] "aBc" (by decide) (by decide)).2.1

/-- C9 counterexample: an input that strips to the empty string makes both
generators emit the empty string as a candidate. -/
theorem candidate_nonempty_counterexample :
    "" ∈ generate_usernames [""] ∧ "" ∈ generate_passwords [""] := by
  decide

theorem username_candidates_ne_empty {n x : String} (hn : py_strip n ≠ "")
    (hx : x ∈ username_candidates_of n) : x ≠ "" := by
  simp only [username_candidates_of] at hx
  by_cases hsp : py_contains (py_strip n) ' '
  · rw [if_pos hsp] at hx
    have hparts : py_split_ws (py_strip n) ≠ [] :=
      py_split_ws_ne_nil (exists_nonws_of_strip_ne hn)
    have hfirst : py_lower ((py_split_ws (py_strip n)).headD "") ≠ "" :=
      py_lower_ne_empty (mem_py_split_ws (headD_mem hparts "")).1
    have hlast : py_lower ((py_split_ws (py_strip n)).getLastD "") ≠ "" :=
      py_lower_ne_empty (mem_py_split_ws (getLastD_mem hparts "")).1
    simp only [List.mem_cons, List.not_mem_nil, or_false] at hx
    rcases hx with rfl | rfl | rfl | rfl | rfl
    · exact append_ne_empty_of_right hlast
    · exact append_ne_empty_of_right hfirst
    · exact append_ne_empty_of_right hlast
    · exact hfirst
    · exact hlast
  · rw [if_neg hsp, List.mem_singleton] at hx
    subst hx
    exact py_lower_ne_empty hn

theorem password_candidates_ne_empty {k x : String} (hk : py_strip k ≠ "")
    (hx : x ∈ password_candidates_of k) : x ≠ "" := by
  simp only [password_candidates_of, List.mem_append, List.mem_cons,
    List.not_mem_nil, or_false] at hx
  have hsuf : ∀ u ∈ password_suffixes, u ≠ "" := by decide
  rcases hx with (rfl | rfl | rfl | rfl | rfl | rfl | rfl | rfl | rfl) | hx
  · exact hk
  · exact py_lower_ne_empty hk
  · exact py_upper_ne_empty hk
  · exact py_capitalize_ne_empty hk
  · exact py_replace_ne_empty _ _ hk
  · exact py_replace_ne_empty _ _ hk
  · exact py_replace_ne_empty _ _ hk
  · exact py_replace_ne_empty _ _ hk
  · exact py_replace_ne_empty _ _ hk
  · rcases List.mem_flatMap.mp hx with ⟨suffix, hs, hx⟩
    simp only [List.mem_cons, List.not_mem_nil, or_false] at hx
    rcases hx with rfl | rfl
    · exact append_ne_empty_of_right (hsuf _ hs)
    · exact append_ne_empty_of_right (hsuf _ hs)

/-- C9 (amended): provided every raw input strips to a non-empty string,
every candidate emitted by `generate_usernames` and by `generate_passwords`
is non-empty. -/
theorem candidates_nonempty :
    (∀ names, (∀ n ∈ names, py_strip n ≠ "") →
      ∀ x ∈ generate_usernames names, x ≠ "") ∧
    (∀ kws, (∀ k ∈ kws, py_strip k ≠ "") →
      ∀ x ∈ generate_passwords kws, x ≠ "") := by
  constructor
  · intro names h x hx
    rcases mem_generate_usernames_iff.mp hx with ⟨n, hn, hx⟩
    exact username_candidates_ne_empty (h n hn) hx
  · intro kws h x hx
    rcases mem_generate_passwords_iff.mp hx with ⟨k, hk, hx⟩
    exact password_candidates_ne_empty (h k hk) hx

/-- Witness for C9 (amended) at a concrete generated username. -/
theorem candidates_nonempty_witness : ("jsmith" : String) ≠ "" :=
  candidates_nonempty.1 ["John Smith"] (by decide) "jsmith" (by decide)

end TksToolbox
